import Mathlib

/-!
# Verification of the laserchess front-end and its game-engine contracts

Shallow embedding of `src/App.js` from the laserchess repository, together
with spec-modelled definitions for the engine modules (`models/Board`,
`models/Location`, `models/Enums`, `redux/slices/gameSlice`) that the
application imports but whose sources are not part of the excerpt.

JavaScript numbers that only ever hold exact screen coordinates are modelled
as rationals; JavaScript truthiness is modelled explicitly by `jsTruthy` over
a small value universe, because two of the rendering guards in `App.js`
(`if (laserBeamPath.length)` and `if (points)`) rely on it.
-/

namespace LaserChess

/-! ## Enums (from `models/Enums`, modelled from the spec:
`PlayerTypesEnum` has RED and BLUE; `MovementTypesEnum` has NORMAL,
ROTATION_CLOCKWISE, ROTATION_C_CLOCKWISE and SPECIAL; piece types are
Pharaoh, Pyramid, Scarab, Anubis, Sphinx.) -/

inductive Player
  | red
  | blue
  deriving DecidableEq, Repr, Fintype

/-- The other player. -/
def Player.other : Player → Player
  | .red => .blue
  | .blue => .red

inductive PieceType
  | pharaoh
  | pyramid
  | scarab
  | anubis
  | sphinx
  deriving DecidableEq, Repr, Fintype

inductive MovementType
  | normal
  | rotationCW
  | rotationCCW
  | special
  deriving DecidableEq, Repr

/-! ## JavaScript truthiness

`App.js` guards rendering on raw JavaScript values (`if (laserBeamPath.length)`,
`if (points)`, `winner && <h1>…`).  We embed the ECMAScript `ToBoolean`
coercion for the value shapes that actually occur there. -/

inductive JSVal
  | vNull
  | vUndef
  | vBool (b : Bool)
  | vNum (q : ℚ)
  | vStr (s : String)
  | vArr (xs : List ℚ)
  deriving DecidableEq

/-- ECMAScript `ToBoolean`: `null`/`undefined` are falsy, numbers are falsy
exactly at `0`, strings exactly when empty, and every array (object) is
truthy — including the empty array. -/
def jsTruthy : JSVal → Bool
  | .vNull => false
  | .vUndef => false
  | .vBool b => b
  | .vNum q => decide (q ≠ 0)
  | .vStr s => decide (s ≠ "")
  | .vArr _ => true

/-! ## Redux actions dispatched by `App.js` -/

inductive Action
  | togglePlayerTurn
  | hideLaserBeam
  | aiMove
  | setBoardType
  | toggleAI
  deriving DecidableEq, Repr

/-! ## The laser-beam effect (`App.js` lines 70–82)

```js
useEffect(() => {
  if (laserBeamPath.length) {
    setTimeout(() => {
      dispatch(togglePlayerTurn());
      dispatch(hideLaserBeam());
    }, 500);
  }
}, [dispatch, laserBeamPath]);
```
The beam path crossing the store is a list of coordinate pairs. -/

def laserEffectActions (laserBeamPath : List (ℚ × ℚ)) : List Action :=
  if jsTruthy (.vNum laserBeamPath.length) then
    [Action.togglePlayerTurn, Action.hideLaserBeam]
  else
    []

/-! ## The AI effect (`App.js` lines 85–93)

```js
useEffect(() => {
  if (turn === PlayerTypesEnum.RED && aiEnabled) {
    setTimeout(() => { dispatch(aiMove()); }, 500);
  }
}, [turn, aiEnabled, dispatch]);
``` -/

def aiEffectActions (turn : Player) (aiEnabled : Bool) : List Action :=
  if turn = Player.red ∧ aiEnabled then [Action.aiMove] else []

/-! ## Stage geometry (`App.js` lines 96–103 and line 298)

```js
const getBoardSize = () => stageWidth;
const getCellSize = () => getBoardSize() / 10;
...
<Stage width={getBoardSize()} height={getBoardSize() - (2 * (getCellSize()))}>
``` -/

def getBoardSize (stageWidth : ℚ) : ℚ := stageWidth

def getCellSize (stageWidth : ℚ) : ℚ := getBoardSize stageWidth / 10

def stageHeight (stageWidth : ℚ) : ℚ :=
  getBoardSize stageWidth - 2 * getCellSize stageWidth

/-! ## Locations

From `models/Location`, modelled from the spec: a Location is
`{ rowIndex: int, colIndex: int }`, 0-based, bounded by the board dimensions
(10 columns by 8 rows on the standard board). -/

structure Location where
  rowIndex : ℕ
  colIndex : ℕ
  deriving DecidableEq, Repr

/-- Modelled from the spec: the standard Khet board is 10×8, Locations are
0-based and in bounds once placed on the board. -/
def boardRows : ℕ := 8

def boardCols : ℕ := 10

def Location.isInBounds (l : Location) : Bool :=
  decide (l.rowIndex < boardRows) && decide (l.colIndex < boardCols)

/-! ## Laser rendering (`App.js` lines 236–248)

```js
const drawLaser = () => {
  const points = flatMap(laserBeamPath).map(coord => coord * getCellSize() + (getCellSize() / 2));
  if (points) {
    return <Line points={points} ... />;
  }
};
```
`laserBeamPath` holds coordinate pairs; lodash `flatMap` with no iteratee
flattens them one level into a plain array of numbers. -/

structure LineElem where
  points : List ℚ
  deriving DecidableEq

def drawLaser (laserBeamPath : List (ℚ × ℚ)) (stageWidth : ℚ) : Option LineElem :=
  let points := (laserBeamPath.flatMap (fun c => [c.1, c.2])).map
    (fun coord => coord * getCellSize stageWidth + getCellSize stageWidth / 2)
  if jsTruthy (.vArr points) then some ⟨points⟩ else none

/-! ## Orientation and pieces -/

/-- A facing direction.  Used both for piece orientations and for the laser
beam's direction of travel. -/
inductive Dir
  | north
  | east
  | south
  | west
  deriving DecidableEq, Repr, Fintype

/-- Modelled from the spec: a Piece is
`{ type, owner, orientation }`, an immutable value. -/
structure Piece where
  ptype : PieceType
  owner : Player
  orientation : Dir
  deriving DecidableEq, Repr

/-- Modelled from the spec: a Square is `{ location: Location,
piece: optional<Piece> }`; emptiness is an absent piece, never a sentinel. -/
structure Square where
  location : Location
  piece : Option Piece
  deriving DecidableEq, Repr

/-- From `models/Square`, modelled from the spec: a square has a piece when
its optional piece is present. -/
def SquareUtils.hasPiece (sq : Square) : Bool :=
  sq.piece.isSome

/-! ## Algebraic notation for locations

From `models/Location` (`LocationUtils`), modelled from the spec: a Location
converts to and from an algebraic string `<col-letter><row-number>`; the
conversion is a pure bijection within the valid 10×8 bounds. -/

def colLetter (c : ℕ) : Char := Char.ofNat ('a'.toNat + c)

def rowDigit (r : ℕ) : Char := Char.ofNat ('0'.toNat + (r + 1))

def LocationUtils.toANString (l : Location) : String :=
  String.mk [colLetter l.colIndex, rowDigit l.rowIndex]

def LocationUtils.fromANString (s : String) : Option Location :=
  match s.data with
  | [c, r] =>
    if _h : 'a'.toNat ≤ c.toNat ∧ c.toNat - 'a'.toNat < boardCols ∧
        '0'.toNat + 1 ≤ r.toNat ∧ r.toNat - '0'.toNat ≤ boardRows then
      some ⟨r.toNat - '0'.toNat - 1, c.toNat - 'a'.toNat⟩
    else
      none
  | _ => none

/-! ## Movements and their transport form

Modelled from the spec: a Movement is
`{ type, srcLocation, destLocation, (for Special) secondaryLocation/
secondaryOrientation }`, immutable, and serializes to a plain
transport-neutral record `{ type, srcLocation, destLocation, secondary? }`
(`movement.serialize()` is the sole unit App.js submits through
`playerMove`). -/

/-- The secondary piece affected by a Special movement: where the displaced
occupant is and its orientation. -/
structure SecondaryData where
  secondaryLocation : Location
  secondaryOrientation : Dir
  deriving DecidableEq, Repr

structure Movement where
  mtype : MovementType
  srcLocation : Location
  destLocation : Location
  secondary : Option SecondaryData
  deriving DecidableEq, Repr

def MovementType.code : MovementType → String
  | .normal => "normal"
  | .rotationCW => "rotation_clockwise"
  | .rotationCCW => "rotation_c_clockwise"
  | .special => "special"

def movementTypeFromCode (s : String) : Option MovementType :=
  if s = "normal" then some .normal
  else if s = "rotation_clockwise" then some .rotationCW
  else if s = "rotation_c_clockwise" then some .rotationCCW
  else if s = "special" then some .special
  else none

def Dir.code : Dir → String
  | .north => "north"
  | .east => "east"
  | .south => "south"
  | .west => "west"

def dirFromCode (s : String) : Option Dir :=
  if s = "north" then some .north
  else if s = "east" then some .east
  else if s = "south" then some .south
  else if s = "west" then some .west
  else none

/-- The transport form of the secondary entry: location in algebraic
notation and the orientation name, both plain strings. -/
structure SerializedSecondary where
  secondaryLocation : String
  secondaryOrientation : String
  deriving DecidableEq, Repr

/-- Modelled from the spec: the serialized transport form of a Movement, a
plain record `{ type, srcLocation, destLocation, secondary? }` of strings
with the locations in algebraic notation and the secondary entry present
exactly when the Movement carries one. -/
structure SerializedMovement where
  mtype : String
  srcLocation : String
  destLocation : String
  secondary : Option SerializedSecondary
  deriving DecidableEq, Repr

def Movement.serialize (m : Movement) : SerializedMovement :=
  ⟨m.mtype.code, LocationUtils.toANString m.srcLocation,
    LocationUtils.toANString m.destLocation,
    m.secondary.map (fun sd =>
      ⟨LocationUtils.toANString sd.secondaryLocation, sd.secondaryOrientation.code⟩)⟩

def deserializeMovement (sm : SerializedMovement) : Option Movement :=
  match movementTypeFromCode sm.mtype, LocationUtils.fromANString sm.srcLocation,
      LocationUtils.fromANString sm.destLocation with
  | some t, some s, some d =>
    match sm.secondary with
    | none => some ⟨t, s, d, none⟩
    | some ssd =>
      match LocationUtils.fromANString ssd.secondaryLocation,
          dirFromCode ssd.secondaryOrientation with
      | some l, some o => some ⟨t, s, d, some ⟨l, o⟩⟩
      | _, _ => none
  | _, _, _ => none

/-- A Movement is legal transport-wise when its endpoints — and the
secondary location, when one is carried — lie on the 10×8 board. -/
def Movement.isLegalForm (m : Movement) : Bool :=
  m.srcLocation.isInBounds && m.destLocation.isInBounds &&
    (match m.secondary with
     | none => true
     | some sd => sd.secondaryLocation.isInBounds)

/-! ## Move-highlight rendering (`App.js` lines 123–167)

`drawHighlight` asks the board for the moves of the selected piece and
renders one yellow `Rect` on the selected square plus one green `Circle` per
returned Movement at that Movement's `destLocation`.  The board's
`getMovesForPieceAtLocation` lives in the absent `models/Board`, so it enters
as a function parameter. -/

inductive Marker
  | rect (x y : ℚ)
  | circle (x y : ℚ)
  deriving DecidableEq, Repr

def Marker.isCircle : Marker → Bool
  | .rect _ _ => false
  | .circle _ _ => true

def drawHighlight (selectedPieceLocation : Option Location)
    (getMovesForPieceAtLocation : Location → List Movement)
    (stageWidth : ℚ) : List Marker :=
  match selectedPieceLocation with
  | none => []
  | some loc =>
    Marker.rect ((loc.colIndex : ℚ) * getCellSize stageWidth)
        ((loc.rowIndex : ℚ) * getCellSize stageWidth) ::
      (getMovesForPieceAtLocation loc).map (fun move =>
        Marker.circle ((move.destLocation.colIndex : ℚ) * getCellSize stageWidth)
          ((move.destLocation.rowIndex : ℚ) * getCellSize stageWidth))

/-! ## Rendered board pieces (`App.js` lines 173–231)

`drawBoardPieces` flattens the square rows, keeps the squares holding a
piece, and renders one `BoardPiece` per such square with Konva node id equal
to the algebraic notation of the square's location. -/

def renderedPieceIds (squares : List (List Square)) : List String :=
  ((squares.flatten).filter (fun sq => SquareUtils.hasPiece sq)).map
    (fun sq => LocationUtils.toANString sq.location)

/-- Konva `layer.find('#id')`: the collection of rendered nodes whose id
matches. -/
def konvaFind (ids : List String) (id : String) : List String :=
  ids.filter (fun i => i = id)

/-- Modelled from the spec: a Special movement is accepted only when it is a
Scarab swap onto a square occupied by a Pyramid or Anubis — a destination
occupied by any other piece is rejected, and an empty destination makes the
move a Normal one instead. -/
def acceptedSpecialMovement (squares : List (List Square)) (m : Movement) : Bool :=
  decide (m.mtype = .special) &&
    (squares.flatten).any (fun sq =>
      decide (sq.location = m.destLocation) &&
        (match sq.piece with
         | some p => decide (p.ptype = .pyramid ∨ p.ptype = .anubis)
         | none => false))

/-! ## Applying a Special (swap) movement

From `models/Board` (`Board.apply` for SPECIAL movements), modelled from the
spec: the Scarab moves onto the occupied destination square and the former
occupant is displaced to the Scarab's origin square, not removed. -/

def modifyList {α : Type} : List α → ℕ → (α → α) → List α
  | [], _, _ => []
  | a :: as, 0, f => f a :: as
  | a :: as, n + 1, f => a :: modifyList as n f

def squareAt (squares : List (List Square)) (l : Location) : Option Square :=
  (squares[l.rowIndex]?).bind (fun row => row[l.colIndex]?)

def pieceAt (squares : List (List Square)) (l : Location) : Option Piece :=
  (squareAt squares l).bind (fun sq => sq.piece)

def setPieceAt (squares : List (List Square)) (l : Location) (p : Option Piece) :
    List (List Square) :=
  modifyList squares l.rowIndex (fun row =>
    modifyList row l.colIndex (fun sq => { sq with piece := p }))

def applySpecialSwap (squares : List (List Square)) (src dest : Location) :
    List (List Square) :=
  let movingPiece := pieceAt squares src
  let occupant := pieceAt squares dest
  setPieceAt (setPieceAt squares src occupant) dest movingPiece

/-! ## Match state and turn resolution

From `redux/slices/gameSlice` (absent from the excerpt), modelled from the
spec: Match State is `{ activePlayer, status: {InProgress, Finished},
winner: optional player }`; it is mutated only by the turn controller after
each fully resolved move+laser cycle and becomes terminal the instant a
Pharaoh is struck, with winner = the player who fired. -/

inductive MatchStatus
  | inProgress
  | finished
  deriving DecidableEq, Repr

structure MatchState where
  activePlayer : Player
  status : MatchStatus
  winner : Option Player
  deriving DecidableEq, Repr

def initialMatch (p : Player) : MatchState :=
  ⟨p, .inProgress, none⟩

def casualtyIsPharaoh (casualty : Option Piece) : Bool :=
  match casualty with
  | some p => decide (p.ptype = .pharaoh)
  | none => false

/-- Modelled from the spec: one turn resolution step.  After the laser fires
with casualty `casualty`, either the struck Pharaoh ends the match with the
firing (active) player as winner, or the active player flips. -/
def resolveTurn (s : MatchState) (casualty : Option Piece) : MatchState :=
  if casualtyIsPharaoh casualty then
    { s with status := .finished, winner := some s.activePlayer }
  else
    { s with activePlayer := s.activePlayer.other }

/-- The match states reachable from a fresh game: turn resolutions are only
applied while the match is in progress. -/
inductive ReachableMatch : MatchState → Prop
  | init (p : Player) : ReachableMatch (initialMatch p)
  | step (s : MatchState) (casualty : Option Piece) :
      ReachableMatch s → s.status = .inProgress →
      ReachableMatch (resolveTurn s casualty)

def playerName : Player → String
  | .red => "red"
  | .blue => "blue"

/-- The winner announcement of `App.js` line 332:
`{winner && <h1>🎉 {winner.toUpperCase()} player wins!</h1>}` — the store's
winner field is the player-colour string or null. -/
def renderWinnerBanner (winner : Option Player) : Bool :=
  jsTruthy (match winner with
    | some p => .vStr (playerName p)
    | none => .vNull)

/-! ## The Laser Engine

From `models/Board` (beam computation, absent from the excerpt), modelled
from the spec §4.2: the beam starts at the firing player's Sphinx, steps one
cell at a time, continues through empty cells, is deflected 90° by the
diagonal mirror faces of Pyramids and Scarabs according to a fixed total
reflection table, is absorbed by an Anubis struck on its front face, and
kills (casualty) a Pharaoh, a Sphinx, or a Pyramid/Anubis struck on a
non-reflective face.  Coordinates are integers so that stepping is plain
addition; in-bounds cells satisfy `0 ≤ row < rows ∧ 0 ≤ col < cols`. -/

def Dir.opposite : Dir → Dir
  | .north => .south
  | .east => .west
  | .south => .north
  | .west => .east

/-- Displacement of one beam step. -/
def delta : Dir → ℤ × ℤ
  | .north => (-1, 0)
  | .east => (0, 1)
  | .south => (1, 0)
  | .west => (0, -1)

def stepPos (p : ℤ × ℤ) (d : Dir) : ℤ × ℤ :=
  (p.1 + (delta d).1, p.2 + (delta d).2)

/-- Deflection by a `/` mirror (the NE–SW diagonal). -/
def slashReflect : Dir → Dir
  | .east => .north
  | .west => .south
  | .north => .east
  | .south => .west

/-- Deflection by a `\` mirror (the NW–SE diagonal). -/
def backslashReflect : Dir → Dir
  | .east => .south
  | .west => .north
  | .north => .west
  | .south => .east

/-- A Scarab carries a double mirror: both faces of its diagonal reflect,
so every incoming direction is deflected.  Orientations north/south put the
mirror on the `/` diagonal, east/west on the `\` diagonal. -/
def scarabReflect (o : Dir) (d : Dir) : Dir :=
  match o with
  | .north | .south => slashReflect d
  | .east | .west => backslashReflect d

/-- A Pyramid has a single mirrored hypotenuse: it reflects the two
directions striking the mirror face of its diagonal and is destroyed from
the other two.  Total over all (orientation, incoming direction) pairs. -/
def pyramidReflect : Dir → Dir → Option Dir
  | .north, .north => some .east
  | .north, .west => some .south
  | .south, .east => some .north
  | .south, .south => some .west
  | .east, .east => some .south
  | .east, .north => some .west
  | .west, .west => some .north
  | .west, .south => some .east
  | _, _ => none

/-- What the beam does when it enters the cell of piece `pc` travelling in
direction `d`. -/
inductive LAct
  | reflect (d : Dir)
  | absorb
  | kill
  deriving DecidableEq, Repr

def laserAct (pc : Piece) (d : Dir) : LAct :=
  match pc.ptype with
  | .pharaoh => .kill
  | .sphinx => .kill
  | .scarab => .reflect (scarabReflect pc.orientation d)
  | .pyramid =>
    match pyramidReflect pc.orientation d with
    | some e => .reflect e
    | none => .kill
  | .anubis => if d = pc.orientation.opposite then .absorb else .kill

/-- A board as the Laser Engine sees it: its dimensions and the pieces at
their cells. -/
structure LaserBoard where
  rows : ℤ
  cols : ℤ
  pieces : List ((ℤ × ℤ) × Piece)

def LaserBoard.pieceAt (b : LaserBoard) (p : ℤ × ℤ) : Option Piece :=
  (b.pieces.find? (fun e => decide (e.1 = p))).map (fun e => e.2)

def LaserBoard.inBounds (b : LaserBoard) (p : ℤ × ℤ) : Bool :=
  decide (0 ≤ p.1) && decide (p.1 < b.rows) && decide (0 ≤ p.2) && decide (p.2 < b.cols)

/-- The number of reflective pieces (Pyramids and Scarabs) on the board. -/
def reflectiveCount (b : LaserBoard) : ℕ :=
  b.pieces.countP (fun e => decide (e.2.ptype = .pyramid ∨ e.2.ptype = .scarab))

/-- A beam state: the cell the beam occupies and its direction of travel
(the next cell entered is one step in that direction). -/
abbrev LState := (ℤ × ℤ) × Dir

inductive StepRes
  | cont (t : LState)
  | exitBoard
  | stopAbsorb (q : ℤ × ℤ)
  | stopKill (q : ℤ × ℤ)
  deriving DecidableEq, Repr

/-- One step of the beam. -/
def stepFull (b : LaserBoard) (s : LState) : StepRes :=
  if b.inBounds (stepPos s.1 s.2) then
    match b.pieceAt (stepPos s.1 s.2) with
    | none => .cont (stepPos s.1 s.2, s.2)
    | some pc =>
      match laserAct pc s.2 with
      | .reflect e => .cont (stepPos s.1 s.2, e)
      | .absorb => .stopAbsorb (stepPos s.1 s.2)
      | .kill => .stopKill (stepPos s.1 s.2)
  else .exitBoard

/-- The continuing part of `stepFull`: `none` when the beam terminates. -/
def stepState (b : LaserBoard) (s : LState) : Option LState :=
  match stepFull b s with
  | .cont t => some t
  | _ => none

/-- The beam state after `n` steps, `none` once the beam has terminated. -/
def trajFrom (b : LaserBoard) (s : LState) : ℕ → Option LState
  | 0 => some s
  | n + 1 => (trajFrom b s n).bind (stepState b)

/-- Number of on-board cells strictly ahead of `p` in direction `d`. -/
def distToEdge (b : LaserBoard) (p : ℤ × ℤ) : Dir → ℤ
  | .north => p.1
  | .south => b.rows - 1 - p.1
  | .east => b.cols - 1 - p.2
  | .west => p.2

/-- The cells strictly ahead of `p` in direction `d`, nearest first. -/
def aheadList (b : LaserBoard) (p : ℤ × ℤ) (d : Dir) : List (ℤ × ℤ) :=
  (List.range (distToEdge b p d).toNat).map
    (fun (k : ℕ) =>
      (p.1 + ((k : ℤ) + 1) * (delta d).1, p.2 + ((k : ℤ) + 1) * (delta d).2))

/-- The first occupied cell ahead of `p` in direction `d`, with its piece. -/
def firstHit (b : LaserBoard) (p : ℤ × ℤ) (d : Dir) : Option ((ℤ × ℤ) × Piece) :=
  (aheadList b p d).findSome? (fun q =>
    match b.pieceAt q with
    | some pc => some (q, pc)
    | none => none)

/-- The cell of the next mirror the beam travelling from `p` in direction
`d` will reflect off, if the first piece ahead reflects that direction. -/
def targetReflects (b : LaserBoard) (p : ℤ × ℤ) (d : Dir) : Option (ℤ × ℤ) :=
  match firstHit b p d with
  | some (q, pc) =>
    match laserAct pc d with
    | .reflect _ => some q
    | _ => none
  | none => none

/-- All in-bounds beam states of a board. -/
def stateUniv (b : LaserBoard) : Finset LState :=
  ((Finset.Icc 0 (b.rows - 1)) ×ˢ (Finset.Icc 0 (b.cols - 1))) ×ˢ
    (Finset.univ : Finset Dir)

/-- The in-bounds beam states from which the beam will reach a mirror and
reflect.  Every state the beam passes through before its final straight run
belongs to this set. -/
def goodStates (b : LaserBoard) : Finset LState :=
  (stateUniv b).filter (fun s => (targetReflects b s.1 s.2).isSome = true)

/-- The cells of the reflective pieces. -/
def mirrorCells (b : LaserBoard) : Finset (ℤ × ℤ) :=
  ((b.pieces.filter (fun e =>
    decide (e.2.ptype = .pyramid ∨ e.2.ptype = .scarab))).map (fun e => e.1)).toFinset

/-- Index of a beam state within the four disjoint arms (west, east, south,
north) of the mirror it is heading for: states targeting the same mirror get
distinct indices below `rows + cols - 2`, because the arms partition the
mirror's row and column. -/
def armIdx (b : LaserBoard) (s : LState) : ℕ :=
  match s.2 with
  | .east => s.1.2.toNat
  | .west => s.1.2.toNat - 1
  | .south => (b.cols - 1).toNat + s.1.1.toNat
  | .north => (b.cols - 1).toNat + s.1.1.toNat - 1

/-- Fuel sufficient for the beam to terminate: one more than the
spec-guaranteed path-length bound `(rows+cols) × (reflective pieces + 1)`. -/
def fireFuel (b : LaserBoard) : ℕ :=
  ((b.rows + b.cols) * (reflectiveCount b + 1) + 1).toNat

def fireAux (b : LaserBoard) :
    ℕ → LState → List (ℤ × ℤ) → Option (List (ℤ × ℤ) × Option (ℤ × ℤ))
  | 0, _, _ => none
  | fuel + 1, s, acc =>
    match stepFull b s with
    | .cont t => fireAux b fuel t (acc ++ [t.1])
    | .exitBoard => some (acc, none)
    | .stopAbsorb q => some (acc ++ [q], none)
    | .stopKill q => some (acc ++ [q], some q)

/-- `fire(board, activePlayer)`: trace the beam from the firing player's
Sphinx cell `start` in its facing direction `d0`; returns the illuminated
path and the casualty cell, if any, or `none` if the fuel runs out (the
termination theorem shows it never does). -/
def fire (b : LaserBoard) (start : ℤ × ℤ) (d0 : Dir) :
    Option (List (ℤ × ℤ) × Option (ℤ × ℤ)) :=
  fireAux b (fireFuel b) (start, d0) []

/-- A concrete 3×3 board for the laser witness: the Red Sphinx fires south,
a Scarab and a Pyramid bend the beam twice, and it strikes the Blue Pharaoh. -/
def laserWitnessBoard : LaserBoard :=
  ⟨3, 3,
    [((0, 0), ⟨.sphinx, .red, .south⟩),
     ((2, 0), ⟨.scarab, .red, .east⟩),
     ((2, 2), ⟨.pyramid, .blue, .south⟩),
     ((0, 2), ⟨.pharaoh, .blue, .north⟩)]⟩

end LaserChess

namespace LaserChess

/-! ## Theorems for the effect and rendering claims -/

/-- **C1.** The turn-flip effect of `App.js` dispatches `togglePlayerTurn`
if and only if the laser beam path produced by the move is non-empty, and it
dispatches it exactly once in that case: the active player flips precisely
when a beam path was produced. -/
theorem togglePlayerTurn_iff_laserPath_nonempty (laserBeamPath : List (ℚ × ℚ)) :
    (Action.togglePlayerTurn ∈ laserEffectActions laserBeamPath ↔ laserBeamPath ≠ []) ∧
      (laserEffectActions laserBeamPath).count Action.togglePlayerTurn =
        (if laserBeamPath = [] then 0 else 1) := by
  unfold laserEffectActions jsTruthy
  rcases laserBeamPath with _ | ⟨p, rest⟩
  · simp
  · have h0 : ((rest.length : ℚ) + 1) ≠ 0 := by positivity
    simp [h0, List.count_cons]

/-- **C7.** The AI effect of `App.js` dispatches `aiMove` if and only if the
active player is Red and AI mode is enabled, so the automated opponent is
never asked to move out of turn. -/
theorem aiMove_iff_red_turn_and_aiEnabled (turn : Player) (aiEnabled : Bool) :
    Action.aiMove ∈ aiEffectActions turn aiEnabled ↔ (turn = Player.red ∧ aiEnabled = true) := by
  unfold aiEffectActions
  rcases turn <;> rcases aiEnabled <;> simp

/-- **C8.** The stage renders a 10-column by 8-row grid: the cell size is the
stage width divided by 10, the stage height equals the width minus two cell
sizes, which is exactly 8 cell sizes, and every in-bounds 0-based Location is
rendered inside the stage rectangle. -/
theorem stage_is_ten_by_eight_grid (w : ℚ) (hw : 0 ≤ w) :
    getCellSize w = w / 10 ∧
      stageHeight w = getBoardSize w - 2 * getCellSize w ∧
      stageHeight w = 8 * getCellSize w ∧
      getBoardSize w = 10 * getCellSize w ∧
      ∀ l : Location, l.isInBounds = true →
        (l.colIndex : ℚ) * getCellSize w + getCellSize w ≤ getBoardSize w ∧
        (l.rowIndex : ℚ) * getCellSize w + getCellSize w ≤ stageHeight w := by
  refine ⟨rfl, rfl, by unfold stageHeight getCellSize getBoardSize; ring, by
    unfold getCellSize getBoardSize; ring, ?_⟩
  intro l hl
  unfold Location.isInBounds at hl
  simp only [Bool.and_eq_true, decide_eq_true_eq] at hl
  have hcell : 0 ≤ getCellSize w := by
    unfold getCellSize getBoardSize
    positivity
  constructor
  · have hc : (l.colIndex : ℚ) + 1 ≤ 10 := by
      have : l.colIndex + 1 ≤ 10 := hl.2
      exact_mod_cast this
    calc (l.colIndex : ℚ) * getCellSize w + getCellSize w
        = ((l.colIndex : ℚ) + 1) * getCellSize w := by ring
      _ ≤ 10 * getCellSize w := by
          exact mul_le_mul_of_nonneg_right hc hcell
      _ = getBoardSize w := by unfold getCellSize getBoardSize; ring
  · have hr : (l.rowIndex : ℚ) + 1 ≤ 8 := by
      have : l.rowIndex + 1 ≤ 8 := hl.1
      exact_mod_cast this
    calc (l.rowIndex : ℚ) * getCellSize w + getCellSize w
        = ((l.rowIndex : ℚ) + 1) * getCellSize w := by ring
      _ ≤ 8 * getCellSize w := by
          exact mul_le_mul_of_nonneg_right hr hcell
      _ = stageHeight w := by unfold stageHeight getCellSize getBoardSize; ring

/-- Witness for C8 at the initial stage width of 700 pixels. -/
theorem stage_is_ten_by_eight_grid_witness :
    getCellSize 700 = 70 ∧ stageHeight 700 = 560 := by
  have h := stage_is_ten_by_eight_grid 700 (by norm_num)
  refine ⟨?_, ?_⟩
  · rw [h.1]; norm_num
  · rw [h.2.2.1, h.1]; norm_num

/-! ### Helper lemmas -/

/-- Algebraic-notation round trip for in-bounds locations. -/
theorem fromANString_toANString (l : Location) (h : l.isInBounds = true) :
    LocationUtils.fromANString (LocationUtils.toANString l) = some l := by
  obtain ⟨r, c⟩ := l
  unfold Location.isInBounds at h
  simp only [Bool.and_eq_true, decide_eq_true_eq] at h
  obtain ⟨hr, hc⟩ := h
  unfold boardRows at hr
  unfold boardCols at hc
  interval_cases r <;> interval_cases c <;> decide

theorem modifyList_getElem? {α : Type} (l : List α) (n : ℕ) (f : α → α) (m : ℕ) :
    (modifyList l n f)[m]? = if m = n then (l[m]?).map f else l[m]? := by
  induction l generalizing n m with
  | nil => simp [modifyList]
  | cons a as ih =>
    cases n with
    | zero =>
      cases m with
      | zero => simp [modifyList]
      | succ m => simp [modifyList]
    | succ n =>
      cases m with
      | zero => simp [modifyList]
      | succ m => simpa [modifyList] using ih n m

theorem squareAt_setPieceAt (squares : List (List Square)) (l l' : Location)
    (p : Option Piece) :
    squareAt (setPieceAt squares l p) l' =
      if l'.rowIndex = l.rowIndex ∧ l'.colIndex = l.colIndex then
        (squareAt squares l').map (fun sq => { sq with piece := p })
      else
        squareAt squares l' := by
  unfold squareAt setPieceAt
  rw [modifyList_getElem?]
  by_cases hrow : l'.rowIndex = l.rowIndex
  · rw [if_pos hrow]
    cases hs : squares[l'.rowIndex]? with
    | none => simp [hs]
    | some row =>
      simp only [hs, Option.map_some', Option.some_bind]
      rw [modifyList_getElem?]
      by_cases hcol : l'.colIndex = l.colIndex
      · rw [if_pos hcol, if_pos ⟨hrow, hcol⟩]
      · rw [if_neg hcol, if_neg (fun hy => hcol hy.2)]
  · rw [if_neg hrow, if_neg (fun hy => hrow hy.1)]

theorem squareAt_setPieceAt_isSome (squares : List (List Square)) (l l' : Location)
    (p : Option Piece) :
    (squareAt (setPieceAt squares l p) l').isSome = (squareAt squares l').isSome := by
  rw [squareAt_setPieceAt]
  split
  · cases squareAt squares l' <;> rfl
  · rfl

theorem pieceAt_setPieceAt_same (squares : List (List Square)) (l : Location)
    (p : Option Piece) (h : (squareAt squares l).isSome = true) :
    pieceAt (setPieceAt squares l p) l = p := by
  unfold pieceAt
  rw [squareAt_setPieceAt]
  simp only [and_self, if_pos]
  obtain ⟨sq, hsq⟩ := Option.isSome_iff_exists.mp h
  rw [hsq]
  rfl

theorem location_ne_iff (l l' : Location) :
    l ≠ l' ↔ (l.rowIndex ≠ l'.rowIndex ∨ l.colIndex ≠ l'.colIndex) := by
  obtain ⟨r, c⟩ := l
  obtain ⟨r', c'⟩ := l'
  simp only [ne_eq, Location.mk.injEq, not_and]
  tauto

theorem pieceAt_setPieceAt_other (squares : List (List Square)) (l l' : Location)
    (p : Option Piece) (h : l' ≠ l) :
    pieceAt (setPieceAt squares l p) l' = pieceAt squares l' := by
  unfold pieceAt
  rw [squareAt_setPieceAt]
  rcases (location_ne_iff l' l).mp h with hr | hc
  · simp [hr]
  · have : ¬(l'.rowIndex = l.rowIndex ∧ l'.colIndex = l.colIndex) := by
      intro hy
      exact hc hy.2
    simp [this]

/-! ### Claim theorems -/

/-- **C9.** `drawLaser` returns a `Line` element for every beam path,
including the empty one: the guard `if (points)` tests an array, which is
always truthy in JavaScript, so the no-render branch is unreachable and a
(possibly zero-point) laser line is rendered on every call. -/
theorem drawLaser_always_renders (laserBeamPath : List (ℚ × ℚ)) (w : ℚ) :
    (drawLaser laserBeamPath w).isSome = true ∧ drawLaser [] w = some ⟨[]⟩ := by
  constructor
  · unfold drawLaser jsTruthy
    simp
  · rfl

/-- **C4.** Serialization round trip: for every Movement whose endpoints —
and secondary location, when the Movement carries secondary data — lie on
the board, deserializing its serialized transport form yields the same
Movement, with no information loss, including the Special movement's
`secondaryLocation`/`secondaryOrientation`. -/
theorem deserialize_serialize_movement (m : Movement) (h : m.isLegalForm = true) :
    deserializeMovement (Movement.serialize m) = some m := by
  obtain ⟨t, s, d, sec⟩ := m
  unfold Movement.isLegalForm at h
  simp only [Bool.and_eq_true] at h
  obtain ⟨⟨hsb, hdb⟩, hsec⟩ := h
  have hs := fromANString_toANString s hsb
  have hd := fromANString_toANString d hdb
  cases sec with
  | none =>
    unfold deserializeMovement Movement.serialize
    simp only [Option.map_none']
    rw [hs, hd]
    cases t <;> rfl
  | some sd =>
    obtain ⟨l, o⟩ := sd
    have hl := fromANString_toANString l hsec
    unfold deserializeMovement Movement.serialize
    simp only [Option.map_some']
    rw [hs, hd, hl]
    cases t <;> cases o <;> rfl

/-- Witness for C4 on a concrete Special movement carrying secondary data. -/
theorem deserialize_serialize_movement_witness :
    (Movement.mk .special ⟨0, 0⟩ ⟨0, 1⟩ (some ⟨⟨0, 1⟩, .north⟩)).isLegalForm = true ∧
      deserializeMovement (Movement.serialize
          (Movement.mk .special ⟨0, 0⟩ ⟨0, 1⟩ (some ⟨⟨0, 1⟩, .north⟩))) =
        some (Movement.mk .special ⟨0, 0⟩ ⟨0, 1⟩ (some ⟨⟨0, 1⟩, .north⟩)) :=
  ⟨by decide, deserialize_serialize_movement _ (by decide)⟩

/-- **C5.** Applying a Special movement swaps the Scarab with the occupant of
the destination square: the former occupant ends up on the Scarab's origin
square, it is not removed from the board, and no square other than the two
swapped ones changes its piece. -/
theorem applySpecialSwap_swaps (squares : List (List Square)) (src dest : Location)
    (hne : src ≠ dest)
    (hsrc : (squareAt squares src).isSome = true)
    (hdest : (squareAt squares dest).isSome = true) :
    pieceAt (applySpecialSwap squares src dest) dest = pieceAt squares src ∧
      pieceAt (applySpecialSwap squares src dest) src = pieceAt squares dest ∧
      ∀ l : Location, l ≠ src → l ≠ dest →
        pieceAt (applySpecialSwap squares src dest) l = pieceAt squares l := by
  unfold applySpecialSwap
  refine ⟨?_, ?_, ?_⟩
  · have hd' : (squareAt (setPieceAt squares src (pieceAt squares dest)) dest).isSome = true := by
      rw [squareAt_setPieceAt_isSome]
      exact hdest
    exact pieceAt_setPieceAt_same _ dest _ hd'
  · rw [pieceAt_setPieceAt_other _ dest src _ hne]
    exact pieceAt_setPieceAt_same _ src _ hsrc
  · intro l hls hld
    rw [pieceAt_setPieceAt_other _ dest l _ hld, pieceAt_setPieceAt_other _ src l _ hls]

/-- Witness board for C5 and C10: a single row holding a Scarab and a
Pyramid next to each other. -/
def witnessSquares : List (List Square) :=
  [[⟨⟨0, 0⟩, some ⟨.scarab, .blue, .north⟩⟩, ⟨⟨0, 1⟩, some ⟨.pyramid, .red, .south⟩⟩]]

/-- Witness for C5 on the concrete two-square board. -/
theorem applySpecialSwap_swaps_witness :
    pieceAt (applySpecialSwap witnessSquares ⟨0, 0⟩ ⟨0, 1⟩) ⟨0, 1⟩ =
        pieceAt witnessSquares ⟨0, 0⟩ ∧
      pieceAt (applySpecialSwap witnessSquares ⟨0, 0⟩ ⟨0, 1⟩) ⟨0, 0⟩ =
        pieceAt witnessSquares ⟨0, 1⟩ :=
  ⟨(applySpecialSwap_swaps witnessSquares ⟨0, 0⟩ ⟨0, 1⟩ (by decide) (by decide) (by decide)).1,
    (applySpecialSwap_swaps witnessSquares ⟨0, 0⟩ ⟨0, 1⟩ (by decide) (by decide) (by decide)).2.1⟩

/-- **C6.** `drawHighlight` renders nothing when no piece is selected, and
for a selected location it renders exactly one candidate-destination circle
per Movement returned by the board's move generation, positioned at that
Movement's `destLocation` cell. -/
theorem drawHighlight_one_circle_per_move
    (getMovesForPieceAtLocation : Location → List Movement) (w : ℚ) :
    drawHighlight none getMovesForPieceAtLocation w = [] ∧
      ∀ loc : Location,
        (drawHighlight (some loc) getMovesForPieceAtLocation w).filter Marker.isCircle =
          (getMovesForPieceAtLocation loc).map (fun move =>
            Marker.circle ((move.destLocation.colIndex : ℚ) * getCellSize w)
              ((move.destLocation.rowIndex : ℚ) * getCellSize w)) ∧
        ((drawHighlight (some loc) getMovesForPieceAtLocation w).filter
            Marker.isCircle).length = (getMovesForPieceAtLocation loc).length := by
  refine ⟨rfl, fun loc => ?_⟩
  have hfilter : (drawHighlight (some loc) getMovesForPieceAtLocation w).filter
      Marker.isCircle =
        (getMovesForPieceAtLocation loc).map (fun move =>
          Marker.circle ((move.destLocation.colIndex : ℚ) * getCellSize w)
            ((move.destLocation.rowIndex : ℚ) * getCellSize w)) := by
    unfold drawHighlight
    rw [List.filter_cons]
    simp only [Marker.isCircle, Bool.false_eq_true, if_false, List.filter_map]
    have : (Marker.isCircle ∘ fun move : Movement =>
        Marker.circle ((move.destLocation.colIndex : ℚ) * getCellSize w)
          ((move.destLocation.rowIndex : ℚ) * getCellSize w)) = fun _ => true := by
      funext move
      rfl
    rw [this, List.filter_true]
  refine ⟨hfilter, ?_⟩
  rw [hfilter, List.length_map]

/-- **C10.** For every Special movement accepted on the current board, the
destination square is occupied, so `drawBoardPieces` renders a piece whose
node id is the algebraic notation of `destLocation` and the Konva query in
the Special-move animation branch of `onMove` returns a non-empty result:
`query[0]` is never `undefined`. -/
theorem specialMovement_target_rendered (squares : List (List Square)) (m : Movement)
    (h : acceptedSpecialMovement squares m = true) :
    konvaFind (renderedPieceIds squares) (LocationUtils.toANString m.destLocation) ≠ [] := by
  unfold acceptedSpecialMovement at h
  simp only [Bool.and_eq_true, List.any_eq_true] at h
  obtain ⟨-, sq, hmem, hsq⟩ := h
  simp only [Bool.and_eq_true, decide_eq_true_eq] at hsq
  obtain ⟨hloc, hpiece⟩ := hsq
  have hhas : SquareUtils.hasPiece sq = true := by
    unfold SquareUtils.hasPiece
    cases hp : sq.piece with
    | none => rw [hp] at hpiece; exact absurd hpiece (by simp)
    | some p => rfl
  have hid : LocationUtils.toANString m.destLocation ∈ renderedPieceIds squares := by
    unfold renderedPieceIds
    refine List.mem_map.mpr ⟨sq, List.mem_filter.mpr ⟨hmem, hhas⟩, by rw [hloc]⟩
  have : LocationUtils.toANString m.destLocation ∈
      konvaFind (renderedPieceIds squares) (LocationUtils.toANString m.destLocation) := by
    unfold konvaFind
    exact List.mem_filter.mpr ⟨hid, by simp⟩
  exact List.ne_nil_of_mem this

/-- Witness for C10: a Special movement of the Scarab onto the Pyramid on
the concrete two-square board. -/
theorem specialMovement_target_rendered_witness :
    konvaFind (renderedPieceIds witnessSquares)
      (LocationUtils.toANString (⟨0, 1⟩ : Location)) ≠ [] :=
  specialMovement_target_rendered witnessSquares
    (Movement.mk .special ⟨0, 0⟩ ⟨0, 1⟩ (some ⟨⟨0, 1⟩, .north⟩)) (by decide)

/-! ### Laser Engine: basic step lemmas -/

/-- The laser interaction of a piece is injective on the directions it
reflects: two incoming directions are never deflected to the same outgoing
direction.  This is what makes the beam dynamics reversible. -/
theorem laserAct_reflect_inj :
    ∀ (pt : PieceType) (ow : Player) (o d1 d2 e : Dir),
      laserAct ⟨pt, ow, o⟩ d1 = .reflect e → laserAct ⟨pt, ow, o⟩ d2 = .reflect e →
      d1 = d2 := by
  decide

/-- Only Pyramids and Scarabs ever reflect the beam. -/
theorem laserAct_reflect_ptype :
    ∀ (pt : PieceType) (ow : Player) (o d e : Dir),
      laserAct ⟨pt, ow, o⟩ d = .reflect e → pt = .pyramid ∨ pt = .scarab := by
  decide

/-- A Sphinx kills the beam from every direction. -/
theorem laserAct_sphinx_kill :
    ∀ (ow : Player) (o d : Dir), laserAct ⟨.sphinx, ow, o⟩ d = .kill := by
  decide

theorem stepPos_inj (p1 p2 : ℤ × ℤ) (d : Dir) (h : stepPos p1 d = stepPos p2 d) :
    p1 = p2 := by
  cases d <;> simp [stepPos, delta, Prod.ext_iff] at h ⊢ <;> omega

theorem stepFull_cont_spec (b : LaserBoard) (s t : LState)
    (h : stepFull b s = .cont t) :
    b.inBounds t.1 = true ∧ t.1 = stepPos s.1 s.2 ∧
      ((b.pieceAt t.1 = none ∧ t.2 = s.2) ∨
        ∃ pc, b.pieceAt t.1 = some pc ∧ laserAct pc s.2 = .reflect t.2) := by
  unfold stepFull at h
  split at h
  · rename_i hb
    split at h
    · rename_i heq
      cases h
      exact ⟨hb, rfl, Or.inl ⟨heq, rfl⟩⟩
    · rename_i pc heq
      split at h
      · rename_i e hact
        cases h
        exact ⟨hb, rfl, Or.inr ⟨pc, heq, hact⟩⟩
      · cases h
      · cases h
  · cases h

theorem stepState_eq_cont (b : LaserBoard) (s : LState) (t : LState) :
    stepState b s = some t ↔ stepFull b s = .cont t := by
  unfold stepState
  cases stepFull b s <;> simp

theorem stepState_inj (b : LaserBoard) (s1 s2 t : LState)
    (h1 : stepState b s1 = some t) (h2 : stepState b s2 = some t) : s1 = s2 := by
  obtain ⟨-, hp1, hbr1⟩ := stepFull_cont_spec b s1 t ((stepState_eq_cont b s1 t).mp h1)
  obtain ⟨-, hp2, hbr2⟩ := stepFull_cont_spec b s2 t ((stepState_eq_cont b s2 t).mp h2)
  have hdir : s1.2 = s2.2 := by
    rcases hbr1 with ⟨hn1, hd1⟩ | ⟨pc1, hpc1, hact1⟩
    · rcases hbr2 with ⟨hn2, hd2⟩ | ⟨pc2, hpc2, hact2⟩
      · rw [← hd1, ← hd2]
      · rw [hn1] at hpc2
        cases hpc2
    · rcases hbr2 with ⟨hn2, hd2⟩ | ⟨pc2, hpc2, hact2⟩
      · rw [hn2] at hpc1
        cases hpc1
      · rw [hpc1] at hpc2
        injection hpc2 with hpc
        obtain ⟨pt, ow, o⟩ := pc1
        cases hpc
        exact laserAct_reflect_inj pt ow o s1.2 s2.2 t.2 hact1 hact2
  have hpos : s1.1 = s2.1 := by
    apply stepPos_inj s1.1 s2.1 s1.2
    rw [← hp1, hdir, ← hp2]
  exact Prod.ext hpos hdir

theorem trajFrom_succ (b : LaserBoard) (s : LState) (n : ℕ) :
    trajFrom b s (n + 1) = (trajFrom b s n).bind (stepState b) := rfl

theorem trajFrom_bind (b : LaserBoard) (s : LState) (m n : ℕ) :
    trajFrom b s (m + n) = (trajFrom b s m).bind (fun t => trajFrom b t n) := by
  induction n with
  | zero =>
    cases h : trajFrom b s m <;> simp [h, trajFrom]
  | succ n ih =>
    rw [← Nat.add_assoc, trajFrom_succ, ih]
    cases h : trajFrom b s m with
    | none => rfl
    | some t => simp [trajFrom_succ]

theorem trajFrom_shift (b : LaserBoard) (s t : LState) (n : ℕ)
    (h : stepState b s = some t) : trajFrom b s (n + 1) = trajFrom b t n := by
  rw [Nat.add_comm, trajFrom_bind]
  simp [trajFrom, h]

theorem traj_distinct (b : LaserBoard) (s0 : LState)
    (hnopre : ∀ s, stepState b s ≠ some s0) :
    ∀ i j x, trajFrom b s0 i = some x → trajFrom b s0 j = some x → i = j := by
  intro i
  induction i with
  | zero =>
    intro j x h0 hj
    cases j with
    | zero => rfl
    | succ j =>
      exfalso
      have hx : x = s0 := by
        simpa [trajFrom] using h0.symm
      rw [hx] at hj
      rw [trajFrom_succ] at hj
      cases hy : trajFrom b s0 j with
      | none => rw [hy] at hj; cases hj
      | some y =>
        rw [hy] at hj
        exact hnopre y hj
  | succ i ih =>
    intro j x hi hj
    cases j with
    | zero =>
      exfalso
      have hx : x = s0 := by
        simpa [trajFrom] using hj.symm
      rw [hx] at hi
      rw [trajFrom_succ] at hi
      cases hy : trajFrom b s0 i with
      | none => rw [hy] at hi; cases hi
      | some y =>
        rw [hy] at hi
        exact hnopre y hi
    | succ j =>
      rw [trajFrom_succ] at hi hj
      cases hy1 : trajFrom b s0 i with
      | none => rw [hy1] at hi; cases hi
      | some y1 =>
        cases hy2 : trajFrom b s0 j with
        | none => rw [hy2] at hj; cases hj
        | some y2 =>
          rw [hy1] at hi
          rw [hy2] at hj
          simp only [Option.some_bind] at hi hj
          have : y1 = y2 := stepState_inj b y1 y2 x hi hj
          rw [this] at hy1
          rw [ih j y2 hy1 hy2]

/-! ### Laser Engine: the ray ahead of the beam -/

theorem inBounds_iff (b : LaserBoard) (p : ℤ × ℤ) :
    b.inBounds p = true ↔ (0 ≤ p.1 ∧ p.1 < b.rows ∧ 0 ≤ p.2 ∧ p.2 < b.cols) := by
  unfold LaserBoard.inBounds
  simp only [Bool.and_eq_true, decide_eq_true_eq]
  tauto

theorem mem_aheadList_east (b : LaserBoard) (p q : ℤ × ℤ)
    (hq : q ∈ aheadList b p .east) : q.1 = p.1 ∧ p.2 < q.2 ∧ q.2 ≤ b.cols - 1 := by
  unfold aheadList at hq
  rw [List.mem_map] at hq
  obtain ⟨a, ha, rfl⟩ := hq
  rw [List.mem_range] at ha
  simp only [distToEdge, delta] at ha ⊢
  omega

theorem mem_aheadList_west (b : LaserBoard) (p q : ℤ × ℤ)
    (hq : q ∈ aheadList b p .west) : q.1 = p.1 ∧ q.2 < p.2 ∧ 0 ≤ q.2 := by
  unfold aheadList at hq
  rw [List.mem_map] at hq
  obtain ⟨a, ha, rfl⟩ := hq
  rw [List.mem_range] at ha
  simp only [distToEdge, delta] at ha ⊢
  omega

theorem mem_aheadList_south (b : LaserBoard) (p q : ℤ × ℤ)
    (hq : q ∈ aheadList b p .south) : q.2 = p.2 ∧ p.1 < q.1 ∧ q.1 ≤ b.rows - 1 := by
  unfold aheadList at hq
  rw [List.mem_map] at hq
  obtain ⟨a, ha, rfl⟩ := hq
  rw [List.mem_range] at ha
  simp only [distToEdge, delta] at ha ⊢
  omega

theorem mem_aheadList_north (b : LaserBoard) (p q : ℤ × ℤ)
    (hq : q ∈ aheadList b p .north) : q.2 = p.2 ∧ q.1 < p.1 ∧ 0 ≤ q.1 := by
  unfold aheadList at hq
  rw [List.mem_map] at hq
  obtain ⟨a, ha, rfl⟩ := hq
  rw [List.mem_range] at ha
  simp only [distToEdge, delta] at ha ⊢
  omega

theorem distToEdge_toNat_step (b : LaserBoard) (p : ℤ × ℤ) (d : Dir)
    (hin : b.inBounds (stepPos p d) = true) :
    (distToEdge b p d).toNat = (distToEdge b (stepPos p d) d).toNat + 1 := by
  rw [inBounds_iff] at hin
  cases d <;>
    (simp only [distToEdge, stepPos, delta] at hin ⊢; omega)

theorem aheadList_cons (b : LaserBoard) (p : ℤ × ℤ) (d : Dir)
    (hin : b.inBounds (stepPos p d) = true) :
    aheadList b p d = stepPos p d :: aheadList b (stepPos p d) d := by
  unfold aheadList
  rw [distToEdge_toNat_step b p d hin, List.range_succ_eq_map, List.map_cons,
    List.map_map]
  congr 1
  · cases d <;> simp [stepPos, delta]
  · apply List.map_congr_left
    intro k hk
    cases d <;>
      (simp only [Function.comp_apply, stepPos, delta, Prod.mk.injEq]; push_cast;
        constructor <;> ring)

theorem firstHit_cons (b : LaserBoard) (p : ℤ × ℤ) (d : Dir)
    (hin : b.inBounds (stepPos p d) = true) :
    firstHit b p d =
      match b.pieceAt (stepPos p d) with
      | some pc => some (stepPos p d, pc)
      | none => firstHit b (stepPos p d) d := by
  unfold firstHit
  rw [aheadList_cons b p d hin, List.findSome?_cons]
  cases hpc : b.pieceAt (stepPos p d) <;> simp [hpc]

theorem targetReflects_some_spec (b : LaserBoard) (p q : ℤ × ℤ) (d : Dir)
    (h : targetReflects b p d = some q) :
    ∃ pc, b.pieceAt q = some pc ∧ (∃ e, laserAct pc d = .reflect e) ∧
      q ∈ aheadList b p d := by
  unfold targetReflects at h
  cases hfh : firstHit b p d with
  | none => rw [hfh] at h; cases h
  | some qpc =>
    obtain ⟨q', pc⟩ := qpc
    rw [hfh] at h
    simp only at h
    cases hact : laserAct pc d <;> rw [hact] at h
    case reflect e =>
      cases h
      unfold firstHit at hfh
      obtain ⟨a, hamem, hfa⟩ := List.exists_of_findSome?_eq_some hfh
      have haq : a = q ∧ b.pieceAt a = some pc := by
        cases hpa : b.pieceAt a <;> rw [hpa] at hfa
        · cases hfa
        · injection hfa with hpair
          injection hpair with ha1 ha2
          exact ⟨ha1, by rw [ha2]⟩
      obtain ⟨rfl, hpq⟩ := haq
      exact ⟨pc, hpq, ⟨e, hact⟩, hamem⟩
    case absorb => cases h
    case kill => cases h

theorem mem_aheadList_spec (b : LaserBoard) (p q : ℤ × ℤ) (d : Dir)
    (hq : q ∈ aheadList b p d) :
    (match d with
     | .east => q.1 = p.1 ∧ p.2 < q.2 ∧ q.2 ≤ b.cols - 1
     | .west => q.1 = p.1 ∧ q.2 < p.2 ∧ 0 ≤ q.2
     | .south => q.2 = p.2 ∧ p.1 < q.1 ∧ q.1 ≤ b.rows - 1
     | .north => q.2 = p.2 ∧ q.1 < p.1 ∧ 0 ≤ q.1) := by
  cases d
  case east => exact mem_aheadList_east b p q hq
  case west => exact mem_aheadList_west b p q hq
  case south => exact mem_aheadList_south b p q hq
  case north => exact mem_aheadList_north b p q hq

theorem target_mem_mirrorCells (b : LaserBoard) (p q : ℤ × ℤ) (d : Dir)
    (h : targetReflects b p d = some q) : q ∈ mirrorCells b := by
  obtain ⟨pc, hpc, ⟨e, hact⟩, -⟩ := targetReflects_some_spec b p q d h
  unfold LaserBoard.pieceAt at hpc
  obtain ⟨epc, hfind, hsnd⟩ := Option.map_eq_some'.mp hpc
  have hmem : epc ∈ b.pieces := List.mem_of_find?_eq_some hfind
  have hfst : epc.1 = q := by
    have := List.find?_some hfind
    simpa using this
  have hpt : epc.2.ptype = .pyramid ∨ epc.2.ptype = .scarab := by
    obtain ⟨pt, ow, o⟩ := pc
    have := laserAct_reflect_ptype pt ow o d e hact
    rw [hsnd]
    exact this
  unfold mirrorCells
  rw [List.mem_toFinset, List.mem_map]
  refine ⟨epc, List.mem_filter.mpr ⟨hmem, by simpa using hpt⟩, hfst⟩

theorem mem_stateUniv_of_inBounds (b : LaserBoard) (s : LState)
    (h : b.inBounds s.1 = true) : s ∈ stateUniv b := by
  rw [inBounds_iff] at h
  unfold stateUniv
  rw [Finset.mem_product, Finset.mem_product]
  refine ⟨⟨Finset.mem_Icc.mpr ⟨h.1, by omega⟩, Finset.mem_Icc.mpr ⟨h.2.2.1, by omega⟩⟩,
    Finset.mem_univ _⟩

theorem stateUniv_bounds (b : LaserBoard) (s : LState) (h : s ∈ stateUniv b) :
    0 ≤ s.1.1 ∧ s.1.1 ≤ b.rows - 1 ∧ 0 ≤ s.1.2 ∧ s.1.2 ≤ b.cols - 1 := by
  unfold stateUniv at h
  rw [Finset.mem_product, Finset.mem_product] at h
  obtain ⟨⟨h1, h2⟩, -⟩ := h
  rw [Finset.mem_Icc] at h1 h2
  exact ⟨h1.1, h1.2, h2.1, h2.2⟩

theorem mirrorCells_card_le (b : LaserBoard) :
    (mirrorCells b).card ≤ reflectiveCount b := by
  unfold mirrorCells reflectiveCount
  calc (((b.pieces.filter _).map (fun e => e.1)).toFinset).card
      ≤ ((b.pieces.filter (fun e =>
          decide (e.2.ptype = .pyramid ∨ e.2.ptype = .scarab))).map
            (fun e => e.1)).length := List.toFinset_card_le _
    _ = (b.pieces.filter (fun e =>
          decide (e.2.ptype = .pyramid ∨ e.2.ptype = .scarab))).length :=
        List.length_map _ _
    _ = b.pieces.countP (fun e =>
          decide (e.2.ptype = .pyramid ∨ e.2.ptype = .scarab)) :=
        (List.countP_eq_length_filter _ _).symm

/-- The counting heart of the path-length bound: the beam states from which
the next interaction is a reflection inject into
(mirror cell, arm position); for each mirror the four arms are disjoint
segments of its row and column, together at most `rows + cols - 2` cells. -/
theorem goodStates_card_le (b : LaserBoard) :
    (goodStates b).card ≤ reflectiveCount b * (b.rows + b.cols - 2).toNat := by
  have hmain : (goodStates b).card ≤
      ((mirrorCells b) ×ˢ (Finset.range (b.rows + b.cols - 2).toNat)).card := by
    apply Finset.card_le_card_of_injOn
      (fun s => ((targetReflects b s.1 s.2).getD (0, 0), armIdx b s))
    · intro s hs
      rw [goodStates, Finset.mem_filter] at hs
      obtain ⟨huniv, htgt⟩ := hs
      obtain ⟨q, hq⟩ := Option.isSome_iff_exists.mp htgt
      obtain ⟨p, d⟩ := s
      simp only at hq
      have hbounds := stateUniv_bounds b (p, d) huniv
      simp only at hbounds
      obtain ⟨-, -, -, hmem⟩ := targetReflects_some_spec b p q d hq
      have hF := mem_aheadList_spec b p q d hmem
      rw [Finset.mem_product]
      constructor
      · simp only [hq, Option.getD_some]
        exact target_mem_mirrorCells b p q d hq
      · rw [Finset.mem_range]
        cases d <;>
          (obtain ⟨f1, f2, f3⟩ := hF
           simp only [armIdx]
           omega)
    · intro s1 hs1 s2 hs2 heq
      rw [Finset.mem_coe, goodStates, Finset.mem_filter] at hs1 hs2
      obtain ⟨huniv1, htgt1⟩ := hs1
      obtain ⟨huniv2, htgt2⟩ := hs2
      obtain ⟨p1, d1⟩ := s1
      obtain ⟨p2, d2⟩ := s2
      obtain ⟨q1, hq1⟩ := Option.isSome_iff_exists.mp htgt1
      obtain ⟨q2, hq2⟩ := Option.isSome_iff_exists.mp htgt2
      simp only at hq1 hq2
      rw [Prod.mk.injEq] at heq
      obtain ⟨heqq, hidx⟩ := heq
      rw [hq1, hq2, Option.getD_some, Option.getD_some] at heqq
      rw [← heqq] at hq2
      have hbounds1 := stateUniv_bounds b (p1, d1) huniv1
      have hbounds2 := stateUniv_bounds b (p2, d2) huniv2
      simp only at hbounds1 hbounds2
      obtain ⟨-, -, -, hmem1⟩ := targetReflects_some_spec b p1 q1 d1 hq1
      obtain ⟨-, -, -, hmem2⟩ := targetReflects_some_spec b p2 q1 d2 hq2
      have hF1 := mem_aheadList_spec b p1 q1 d1 hmem1
      have hF2 := mem_aheadList_spec b p2 q1 d2 hmem2
      cases d1 <;> cases d2 <;>
        (obtain ⟨f11, f12, f13⟩ := hF1
         obtain ⟨f21, f22, f23⟩ := hF2
         simp only [armIdx] at hidx
         first
         | (exfalso; omega)
         | (simp only [Prod.mk.injEq, and_true]
            rw [Prod.ext_iff]
            constructor <;> omega))
  rw [Finset.card_product, Finset.card_range] at hmain
  calc (goodStates b).card
      ≤ (mirrorCells b).card * (b.rows + b.cols - 2).toNat := hmain
    _ ≤ reflectiveCount b * (b.rows + b.cols - 2).toNat :=
        Nat.mul_le_mul_right _ (mirrorCells_card_le b)

/-! ### Laser Engine: the final straight run terminates -/

theorem straight_phase (b : LaserBoard) :
    ∀ (m : ℕ) (p : ℤ × ℤ) (d : Dir),
      (distToEdge b p d).toNat ≤ m → targetReflects b p d = none →
      ∃ k, k ≤ m + 1 ∧ trajFrom b (p, d) k = none := by
  intro m
  induction m with
  | zero =>
    intro p d hdist htgt
    cases hsf : stepFull b (p, d) with
    | cont t =>
      exfalso
      obtain ⟨hin, hpos, hbr⟩ := stepFull_cont_spec b (p, d) t hsf
      rw [hpos] at hin
      have := distToEdge_toNat_step b p d hin
      omega
    | exitBoard =>
      exact ⟨1, le_refl 1, by simp [trajFrom, stepState, hsf]⟩
    | stopAbsorb q =>
      exact ⟨1, le_refl 1, by simp [trajFrom, stepState, hsf]⟩
    | stopKill q =>
      exact ⟨1, le_refl 1, by simp [trajFrom, stepState, hsf]⟩
  | succ m ih =>
    intro p d hdist htgt
    cases hsf : stepFull b (p, d) with
    | cont t =>
      obtain ⟨hin, hpos, hbr⟩ := stepFull_cont_spec b (p, d) t hsf
      rw [hpos] at hin
      rcases hbr with ⟨hnone, hdir⟩ | ⟨pc, hpc, hact⟩
      · -- next cell empty: the beam advances straight
        rw [hpos] at hnone
        have htgt' : targetReflects b (stepPos p d) d = none := by
          unfold targetReflects at htgt ⊢
          rw [firstHit_cons b p d hin, hnone] at htgt
          exact htgt
        have hdist' : (distToEdge b (stepPos p d) d).toNat ≤ m := by
          have := distToEdge_toNat_step b p d hin
          omega
        obtain ⟨k, hk, htraj⟩ := ih (stepPos p d) d hdist' htgt'
        refine ⟨k + 1, by omega, ?_⟩
        have hss : stepState b (p, d) = some (stepPos p d, d) := by
          rw [stepState_eq_cont]
          rw [hsf]
          have : t = (stepPos p d, d) := by
            obtain ⟨t1, t2⟩ := t
            simp only at hpos hdir
            rw [hpos, hdir]
          rw [this]
        rw [trajFrom_shift b (p, d) (stepPos p d, d) k hss]
        exact htraj
      · -- next cell holds a reflecting piece: contradicts target = none
        exfalso
        rw [hpos] at hpc
        unfold targetReflects at htgt
        rw [firstHit_cons b p d hin, hpc] at htgt
        simp only at htgt
        obtain ⟨pt, ow, o⟩ := pc
        rw [hact] at htgt
        cases htgt
    | exitBoard =>
      exact ⟨1, by omega, by simp [trajFrom, stepState, hsf]⟩
    | stopAbsorb q =>
      exact ⟨1, by omega, by simp [trajFrom, stepState, hsf]⟩
    | stopKill q =>
      exact ⟨1, by omega, by simp [trajFrom, stepState, hsf]⟩

/-! ### Laser Engine: termination and the path-length bound -/

theorem traj_inBounds (b : LaserBoard) (s0 : LState)
    (hin0 : b.inBounds s0.1 = true) :
    ∀ i x, trajFrom b s0 i = some x → b.inBounds x.1 = true := by
  intro i
  induction i with
  | zero =>
    intro x h
    have hx : x = s0 := by simpa [trajFrom] using h.symm
    rw [hx]
    exact hin0
  | succ i ih =>
    intro x h
    rw [trajFrom_succ] at h
    cases hy : trajFrom b s0 i with
    | none => rw [hy] at h; cases h
    | some y =>
      rw [hy] at h
      simp only [Option.some_bind] at h
      obtain ⟨hb, hpos, -⟩ := stepFull_cont_spec b y x ((stepState_eq_cont b y x).mp h)
      exact hb

theorem good_phase (b : LaserBoard) (s0 : LState)
    (hnopre : ∀ s, stepState b s ≠ some s0)
    (hin0 : b.inBounds s0.1 = true) :
    ∃ i ≤ (goodStates b).card,
      trajFrom b s0 i = none ∨
        ∃ x, trajFrom b s0 i = some x ∧ targetReflects b x.1 x.2 = none := by
  by_contra hcon
  push_neg at hcon
  have hf : ∀ i : Fin ((goodStates b).card + 1),
      ∃ x, trajFrom b s0 (i : ℕ) = some x ∧
        (targetReflects b x.1 x.2).isSome = true := by
    intro i
    have hi : (i : ℕ) ≤ (goodStates b).card := by omega
    obtain ⟨hne, hall⟩ := hcon (i : ℕ) hi
    cases hx : trajFrom b s0 (i : ℕ) with
    | none => exact absurd hx hne
    | some x =>
      refine ⟨x, rfl, ?_⟩
      have := hall x hx
      cases ht : targetReflects b x.1 x.2 with
      | none => exact absurd ht this
      | some q => rfl
  choose F hF1 hF2 using hf
  have hmaps : ∀ i, F i ∈ goodStates b := by
    intro i
    rw [goodStates, Finset.mem_filter]
    exact ⟨mem_stateUniv_of_inBounds b (F i)
      (traj_inBounds b s0 hin0 (i : ℕ) (F i) (hF1 i)), hF2 i⟩
  have hinj : ∀ i j, F i = F j → i = j := by
    intro i j hij
    have h1 := hF1 i
    have h2 := hF1 j
    rw [hij] at h1
    have := traj_distinct b s0 hnopre (i : ℕ) (j : ℕ) (F j) h1 h2
    exact Fin.ext this
  have hcard : (Finset.univ : Finset (Fin ((goodStates b).card + 1))).card ≤
      (goodStates b).card := by
    apply Finset.card_le_card_of_injOn F (fun i _ => hmaps i)
    intro i _ j _ hij
    exact hinj i j hij
  rw [Finset.card_univ, Fintype.card_fin] at hcard
  omega

theorem distToEdge_le (b : LaserBoard) (p : ℤ × ℤ) (d : Dir)
    (h : b.inBounds p = true) :
    (distToEdge b p d).toNat ≤ (b.rows + b.cols - 2).toNat := by
  rw [inBounds_iff] at h
  cases d <;> (simp only [distToEdge]; omega)

theorem beam_terminates (b : LaserBoard) (s0 : LState)
    (hnopre : ∀ s, stepState b s ≠ some s0)
    (hin0 : b.inBounds s0.1 = true) :
    ∃ m, m ≤ (goodStates b).card + (b.rows + b.cols - 2).toNat + 2 ∧
      trajFrom b s0 m = none := by
  obtain ⟨i, hi, hcase⟩ := good_phase b s0 hnopre hin0
  rcases hcase with hnone | ⟨x, hx, htgt⟩
  · exact ⟨i, by omega, hnone⟩
  · have hinx : b.inBounds x.1 = true := traj_inBounds b s0 hin0 i x hx
    obtain ⟨k, hk, hkend⟩ := straight_phase b ((distToEdge b x.1 x.2).toNat) x.1 x.2
      le_rfl htgt
    have hxeta : (x.1, x.2) = x := rfl
    refine ⟨i + k, ?_, ?_⟩
    · have := distToEdge_le b x.1 x.2 hinx
      omega
    · rw [trajFrom_bind, hx]
      simp only [Option.some_bind]
      rw [← hxeta]
      exact hkend

theorem fireAux_succ (b : LaserBoard) (f : ℕ) (s : LState) (acc : List (ℤ × ℤ)) :
    fireAux b (f + 1) s acc =
      match stepFull b s with
      | .cont t => fireAux b f t (acc ++ [t.1])
      | .exitBoard => some (acc, none)
      | .stopAbsorb q => some (acc ++ [q], none)
      | .stopKill q => some (acc ++ [q], some q) := rfl

theorem fireAux_of_traj_none (b : LaserBoard) :
    ∀ (m : ℕ) (s : LState) (acc : List (ℤ × ℤ)) (fuel : ℕ),
      trajFrom b s m = none → m ≤ fuel →
      ∃ path cas, fireAux b fuel s acc = some (path, cas) ∧
        path.length ≤ acc.length + m := by
  intro m
  induction m with
  | zero =>
    intro s acc fuel h _
    simp [trajFrom] at h
  | succ m ih =>
    intro s acc fuel h hf
    cases fuel with
    | zero => omega
    | succ f =>
      cases hsf : stepFull b s with
      | cont t =>
        have hss : stepState b s = some t := (stepState_eq_cont b s t).mpr hsf
        rw [trajFrom_shift b s t m hss] at h
        obtain ⟨path, cas, hfa, hlen⟩ := ih t (acc ++ [t.1]) f h (by omega)
        refine ⟨path, cas, ?_, ?_⟩
        · rw [fireAux_succ, hsf]
          exact hfa
        · simp only [List.length_append, List.length_singleton] at hlen
          omega
      | exitBoard =>
        refine ⟨acc, none, by rw [fireAux_succ, hsf], by omega⟩
      | stopAbsorb q =>
        refine ⟨acc ++ [q], none, by rw [fireAux_succ, hsf], ?_⟩
        simp only [List.length_append, List.length_singleton]
        omega
      | stopKill q =>
        refine ⟨acc ++ [q], some q, by rw [fireAux_succ, hsf], ?_⟩
        simp only [List.length_append, List.length_singleton]
        omega

/-- **C3.** For every board and firing position, the Laser Engine
terminates and returns a finite path of length at most
`(rows + cols) × (number of reflective pieces + 1)` — it never loops, even
on cycle-prone mirror arrangements, because the step dynamics is injective
and no beam state maps back onto the Sphinx's cell, so no state repeats. -/
theorem fire_terminates_and_path_bounded (b : LaserBoard) (start : ℤ × ℤ) (d0 : Dir)
    (hstart : b.inBounds start = true)
    (hsphinx : ∃ pc, b.pieceAt start = some pc ∧ pc.ptype = .sphinx) :
    ∃ path casualty, fire b start d0 = some (path, casualty) ∧
      (path.length : ℤ) ≤ (b.rows + b.cols) * (reflectiveCount b + 1) := by
  obtain ⟨pc, hpcs, hpt⟩ := hsphinx
  have hnopre : ∀ s, stepState b s ≠ some (start, d0) := by
    intro s hss
    obtain ⟨-, -, hbr⟩ := stepFull_cont_spec b s (start, d0)
      ((stepState_eq_cont b s (start, d0)).mp hss)
    rcases hbr with ⟨hnone, -⟩ | ⟨pc', hpc', hact⟩
    · rw [show ((start, d0) : LState).1 = start from rfl, hpcs] at hnone
      cases hnone
    · rw [show ((start, d0) : LState).1 = start from rfl, hpcs] at hpc'
      injection hpc' with he
      rw [← he] at hact
      obtain ⟨pt, ow, o⟩ := pc
      simp only at hpt
      rw [hpt] at hact
      rw [laserAct_sphinx_kill ow o s.2] at hact
      cases hact
  have hdims : 1 ≤ b.rows ∧ 1 ≤ b.cols := by
    have h' := hstart
    rw [inBounds_iff] at h'
    constructor <;> omega
  obtain ⟨m, hm, hmnone⟩ := beam_terminates b (start, d0) hnopre hstart
  set R := reflectiveCount b with hR
  set D := (b.rows + b.cols - 2).toNat with hD
  have hGle : (goodStates b).card ≤ R * D := goodStates_card_le b
  have hDM : b.rows + b.cols = (D : ℤ) + 2 := by
    rw [hD]
    omega
  have hfuel_eq : fireFuel b = (D + 2) * (R + 1) + 1 := by
    unfold fireFuel
    rw [show (b.rows + b.cols) = (D : ℤ) + 2 from hDM]
    rw [show ((D : ℤ) + 2) * ((reflectiveCount b : ℤ) + 1) + 1 =
        (((D + 2) * (reflectiveCount b + 1) + 1 : ℕ) : ℤ) from by push_cast; ring]
    rw [Int.toNat_natCast]
  have hexp : (D + 2) * (R + 1) = R * D + D + 2 * R + 2 := by ring
  have hmle : m ≤ R * D + D + 2 := by
    have := hm
    linarith
  have hmfuel : m ≤ fireFuel b := by
    rw [hfuel_eq]
    linarith
  obtain ⟨path, cas, hfire, hlen⟩ :=
    fireAux_of_traj_none b m (start, d0) [] (fireFuel b) hmnone hmfuel
  refine ⟨path, cas, hfire, ?_⟩
  have hlen0 : path.length ≤ m := by simpa using hlen
  have hlenN : path.length ≤ (D + 2) * (R + 1) := by linarith
  calc (path.length : ℤ)
      ≤ (((D + 2) * (R + 1) : ℕ) : ℤ) := by exact_mod_cast hlenN
    _ = (b.rows + b.cols) * ((R : ℤ) + 1) := by rw [hDM]; push_cast; ring

/-- Witness for C3 on the concrete 3×3 board: the beam reflects off the
Scarab and the Pyramid and halts on the Pharaoh within the bound. -/
theorem fire_terminates_and_path_bounded_witness :
    laserWitnessBoard.inBounds (0, 0) = true ∧
      ∃ path casualty,
        fire laserWitnessBoard (0, 0) .south = some (path, casualty) ∧
          (path.length : ℤ) ≤ (laserWitnessBoard.rows + laserWitnessBoard.cols) *
            (reflectiveCount laserWitnessBoard + 1) :=
  ⟨by decide,
    fire_terminates_and_path_bounded laserWitnessBoard (0, 0) .south (by decide)
      ⟨⟨.sphinx, .red, .south⟩, by decide, rfl⟩⟩

/-- The winner field of a reachable match state is set exactly when the
status is Finished. -/
theorem reachable_winner_invariant (s : MatchState) (hs : ReachableMatch s) :
    (s.winner.isSome = true ↔ s.status = .finished) := by
  induction hs with
  | init p => simp [initialMatch]
  | step s casualty _ hprog ih =>
    unfold resolveTurn
    by_cases hc : casualtyIsPharaoh casualty = true
    · simp [hc]
    · simp only [hc, Bool.false_eq_true, if_false]
      simpa using ih

/-- **C2.** For every reachable match state the winner is set iff the status
is Finished; a turn resolution that strikes a Pharaoh makes the state
Finished with the firing player as winner in that same step; and the UI
renders the winner announcement exactly when the winner is set. -/
theorem winner_iff_finished (s : MatchState) (hs : ReachableMatch s) :
    (s.winner.isSome = true ↔ s.status = .finished) ∧
      (renderWinnerBanner s.winner = true ↔ s.winner.isSome = true) ∧
      ∀ c : Option Piece, casualtyIsPharaoh c = true →
        (resolveTurn s c).status = .finished ∧
          (resolveTurn s c).winner = some s.activePlayer := by
  refine ⟨reachable_winner_invariant s hs, ?_, ?_⟩
  · cases s.winner with
    | none => simp [renderWinnerBanner, jsTruthy]
    | some p => cases p <;> simp [renderWinnerBanner, jsTruthy, playerName]
  · intro c hc
    unfold resolveTurn
    rw [if_pos hc]
    exact ⟨rfl, rfl⟩

/-- Witness for C2 on the state reached after Blue's laser strikes the Red
Pharaoh on the first turn. -/
theorem winner_iff_finished_witness :
    ((resolveTurn (initialMatch .blue) (some ⟨.pharaoh, .red, .north⟩)).winner.isSome = true ↔
      (resolveTurn (initialMatch .blue) (some ⟨.pharaoh, .red, .north⟩)).status =
        .finished) :=
  (winner_iff_finished _
    (ReachableMatch.step (initialMatch .blue) (some ⟨.pharaoh, .red, .north⟩)
      (ReachableMatch.init .blue) rfl)).1

end LaserChess
